import Mathlib

/-!
Verification of the libmetal utility header (lib/utilities.h): a shallow
embedding of the bitmap primitives (set/clear/test a bit, scan for the next
set/clear bit, the for-each iteration macros, word sizing) and of metal_log2,
together with theorems settling the specified properties.

Modelling conventions:
- The platform is LP64: unsigned long has 64 bits, so METAL_BITS_PER_ULONG
  (defined in C as 8 * sizeof(unsigned long)) is 64.
- A bitmap (C: unsigned long *bitmap) is modelled as a total function
  Nat → Nat from word index to word value; the caller guarantees allocation,
  which the total function models.  Word values produced by C code are always
  below 2^64; bitwise complement of an unsigned long value x is modelled as
  (2^64 - 1) ^^^ x, which is exactly ~x for x < 2^64.
- The C function metal_bitmap_is_bit_set returns int although the tested
  expression bitmap[...] & mask has type unsigned long.  On LP64 int has 32
  bits, so the return statement converts the 64-bit value by reduction mod
  2^32 (the standard conversion on every LP64 compiler); the function's
  truthiness is that reduced value being nonzero.  The embedding models this
  truncation exactly: for a bit at in-word position 32..63 the mask's low 32
  bits are zero, so the program reports the bit as unset even when it is 1
  in memory.
- The C for loops (bounded linear scans) are encoded as structural recursion
  on a fuel argument chosen so that the fuel can never be exhausted before the
  loop guard fails: in metal_bitmap_next_set_bit the scan variable starts at
  start, increases by 1 each step and stops as soon as it reaches max, so
  max - start steps always suffice.  This keeps every definition executable.
- The for-each iteration macros have no intrinsic bound on their number of
  iterations (the scan restarts at the index just found), so their embedding
  takes an explicit fuel and returns the list of indices the loop variable
  takes during the first fuel iterations; a run that terminates is one whose
  yielded list is stable once fuel is large enough.
-/

/-- Bits in an unsigned long on the modelled LP64 platform
(C: 8 * sizeof(unsigned long)). -/
def METAL_BITS_PER_ULONG : Nat := 64

/-- Bits in an int on the modelled LP64 platform: the return type of
metal_bitmap_is_bit_set converts its unsigned long operand mod 2^INT_BITS. -/
def INT_BITS : Nat := 32

/-- Largest unsigned long value; xor with it models C's bitwise complement
of an unsigned long. -/
def ULONG_MAX : Nat := 2 ^ 64 - 1

/-- C macro metal_div_round_down(num, den) = (num) / (den). -/
def metal_div_round_down (num den : Nat) : Nat := num / den

/-- C macro metal_div_round_up(num, den) = metal_div_round_down((num) + (den) - 1, (den)). -/
def metal_div_round_up (num den : Nat) : Nat :=
  metal_div_round_down (num + den - 1) den

/-- C macro metal_bit(bit) = 1UL << (bit). -/
def metal_bit (bit : Nat) : Nat := 1 <<< bit

/-- C macro metal_bitmap_longs(x) = metal_div_round_up((x), METAL_BITS_PER_ULONG). -/
def metal_bitmap_longs (x : Nat) : Nat :=
  metal_div_round_up x METAL_BITS_PER_ULONG

/-- C: metal_bitmap_set_bit: bitmap[bit / W] |= metal_bit(bit & (W - 1));
returns the updated word array. -/
def metal_bitmap_set_bit (bm : Nat → Nat) (bit : Nat) : Nat → Nat :=
  fun i =>
    if i = bit / METAL_BITS_PER_ULONG then
      bm i ||| metal_bit (bit &&& (METAL_BITS_PER_ULONG - 1))
    else bm i

/-- C: metal_bitmap_is_bit_set: the unsigned long expression
bitmap[bit / W] & metal_bit(bit & (W - 1)) is returned as int, which on LP64
reduces it mod 2^32; the result is truthy iff that reduced value is nonzero. -/
def metal_bitmap_is_bit_set (bm : Nat → Nat) (bit : Nat) : Bool :=
  (bm (bit / METAL_BITS_PER_ULONG) &&& metal_bit (bit &&& (METAL_BITS_PER_ULONG - 1)))
    % 2 ^ INT_BITS != 0

/-- C: metal_bitmap_clear_bit: bitmap[bit / W] &= ~metal_bit(bit & (W - 1));
returns the updated word array. -/
def metal_bitmap_clear_bit (bm : Nat → Nat) (bit : Nat) : Nat → Nat :=
  fun i =>
    if i = bit / METAL_BITS_PER_ULONG then
      bm i &&& (ULONG_MAX ^^^ metal_bit (bit &&& (METAL_BITS_PER_ULONG - 1)))
    else bm i

/-- C: metal_bitmap_is_bit_clear(bitmap, bit) = !metal_bitmap_is_bit_set(bitmap, bit). -/
def metal_bitmap_is_bit_clear (bm : Nat → Nat) (bit : Nat) : Bool :=
  !(metal_bitmap_is_bit_set bm bit)

/-- Concrete all-zero bitmap used in witnesses. -/
def bmZero : Nat → Nat := fun _ => 0

/-- Loop of metal_bitmap_next_set_bit:
for (bit = start; bit < max && !metal_bitmap_is_bit_set(bitmap, bit); bit++);
encoded by structural recursion on a fuel argument.  The caller passes fuel
max - start; the scan variable increases by 1 per consumed fuel unit, so fuel
can reach 0 only when bit has reached max, where the guard fails anyway. -/
def nextSetBitGo (bm : Nat → Nat) (max : Nat) : Nat → Nat → Nat
  | 0, bit => bit
  | fuel + 1, bit =>
      if bit < max ∧ metal_bitmap_is_bit_set bm bit = false then
        nextSetBitGo bm max fuel (bit + 1)
      else bit

/-- C: metal_bitmap_next_set_bit(bitmap, start, max). -/
def metal_bitmap_next_set_bit (bm : Nat → Nat) (start max : Nat) : Nat :=
  nextSetBitGo bm max (max - start) start

/-- Loop of metal_bitmap_next_clear_bit:
for (bit = start; bit < max && !metal_bitmap_is_bit_clear(bitmap, bit); bit++);
same fuel encoding as nextSetBitGo. -/
def nextClearBitGo (bm : Nat → Nat) (max : Nat) : Nat → Nat → Nat
  | 0, bit => bit
  | fuel + 1, bit =>
      if bit < max ∧ metal_bitmap_is_bit_clear bm bit = false then
        nextClearBitGo bm max fuel (bit + 1)
      else bit

/-- C: metal_bitmap_next_clear_bit(bitmap, start, max). -/
def metal_bitmap_next_clear_bit (bm : Nat → Nat) (start max : Nat) : Nat :=
  nextClearBitGo bm max (max - start) start

/-- Concrete bitmap with exactly bits 2, 5 and 9 set:
word 0 = 2^2 + 2^5 + 2^9 = 548. -/
def bm259 : Nat → Nat := fun i => if i = 0 then 548 else 0

/-- Loop of the C macro metal_bitmap_for_each_set_bit(bitmap, bit, max):
after initialization the loop runs while bit < max and steps with
bit = metal_bitmap_next_set_bit(bitmap, bit, max) — restarting the scan at
the index just found, not after it.  The fuel argument bounds the number of
observed iterations; the returned list is the sequence of values the loop
variable takes during the first fuel iterations. -/
def forEachSetBitGo (bm : Nat → Nat) (max : Nat) : Nat → Nat → List Nat
  | 0, _ => []
  | fuel + 1, bit =>
      if bit < max then
        bit :: forEachSetBitGo bm max fuel (metal_bitmap_next_set_bit bm bit max)
      else []

/-- C macro metal_bitmap_for_each_set_bit(bitmap, bit, max), with the loop
variable initialized to metal_bitmap_next_set_bit(bitmap, 0, max). -/
def metal_bitmap_for_each_set_bit (bm : Nat → Nat) (max fuel : Nat) : List Nat :=
  forEachSetBitGo bm max fuel (metal_bitmap_next_set_bit bm 0 max)

/-- Loop of the C macro metal_bitmap_for_each_clear_bit(bitmap, bit, max);
same shape as forEachSetBitGo over clear bits. -/
def forEachClearBitGo (bm : Nat → Nat) (max : Nat) : Nat → Nat → List Nat
  | 0, _ => []
  | fuel + 1, bit =>
      if bit < max then
        bit :: forEachClearBitGo bm max fuel (metal_bitmap_next_clear_bit bm bit max)
      else []

/-- C macro metal_bitmap_for_each_clear_bit(bitmap, bit, max). -/
def metal_bitmap_for_each_clear_bit (bm : Nat → Nat) (max fuel : Nat) : List Nat :=
  forEachClearBitGo bm max fuel (metal_bitmap_next_clear_bit bm 0 max)

/-- Concrete bitmap with exactly bit 0 set. -/
def bmOne : Nat → Nat := fun i => if i = 0 then 1 else 0

/-- Concrete bitmap with exactly bit 32 set: word 0 = 2^32. -/
def bm2p32 : Nat → Nat := fun i => if i = 0 then 2 ^ 32 else 0

/-- Concrete bitmap whose word 0 has all 64 bits set. -/
def bmOnes : Nat → Nat := fun i => if i = 0 then 2 ^ 64 - 1 else 0

/-- Loop of metal_log2: for (result = 0; (1UL << result) < in; result++);
encoded with a fuel argument.  metal_log2 passes fuel in, which suffices:
the loop stops at the first result with 2^result ≥ in, and result < 2^result,
so at most in steps are ever taken. -/
def metalLog2Go (inp : Nat) : Nat → Nat → Nat
  | 0, result => result
  | fuel + 1, result =>
      if 1 <<< result < inp then metalLog2Go inp fuel (result + 1) else result

/-- C: metal_log2(in), the loop and return value (the debug assertion is
modelled separately by metal_log2_assert_ok). -/
def metal_log2 (inp : Nat) : Nat := metalLog2Go inp inp 0

/-- Debug assertion of metal_log2: (in & (in - 1)) == 0, where in - 1 is
unsigned long arithmetic and therefore wraps to 2^64 - 1 when in = 0. -/
def metal_log2_assert_ok (inp : Nat) : Bool :=
  inp &&& ((inp + (2 ^ 64 - 1)) % 2 ^ 64) == 0

/-- Masking with W - 1 = 63 = 2^6 - 1 is reduction mod W = 64. -/
theorem and_sixty_three_eq_mod (bit : Nat) : bit &&& 63 = bit % 64 := by
  have h := Nat.and_pow_two_sub_one_eq_mod bit 6
  norm_num at h
  exact h

/-- The embedded bit test reads bit (bit % 64) of word (bit / 64), and
additionally requires the in-word position to be below INT_BITS = 32: at
positions 32..63 the int return truncation zeroes the tested mask, so the
program reports false regardless of the stored bit. -/
theorem is_bit_set_eq_testBit (bm : Nat → Nat) (bit : Nat) :
    metal_bitmap_is_bit_set bm bit
      = ((bm (bit / METAL_BITS_PER_ULONG)).testBit (bit % METAL_BITS_PER_ULONG)
          && decide (bit % METAL_BITS_PER_ULONG < INT_BITS)) := by
  unfold metal_bitmap_is_bit_set metal_bit METAL_BITS_PER_ULONG INT_BITS
  rw [Nat.one_shiftLeft, show (64 : Nat) - 1 = 63 from rfl, and_sixty_three_eq_mod,
    Nat.and_two_pow]
  rcases h : (bm (bit / 64)).testBit (bit % 64) with _ | _
  · simp
  · simp only [Bool.toNat_true, one_mul, Bool.true_and]
    by_cases hk : bit % 64 < 32
    · have hlt : (2 : Nat) ^ (bit % 64) < 2 ^ 32 :=
        Nat.pow_lt_pow_right (by norm_num) hk
      rw [Nat.mod_eq_of_lt hlt]
      simp [hk, Nat.pos_iff_ne_zero.mp (Nat.two_pow_pos (bit % 64))]
    · have hz : (2 : Nat) ^ (bit % 64) % 2 ^ 32 = 0 :=
        Nat.mod_eq_zero_of_dvd (pow_dvd_pow 2 (by omega))
      rw [hz]
      simp [hk]

/-- Word written by metal_bitmap_set_bit. -/
theorem set_bit_word (bm : Nat → Nat) (b : Nat) :
    (metal_bitmap_set_bit bm b) (b / METAL_BITS_PER_ULONG)
      = bm (b / METAL_BITS_PER_ULONG) ||| 2 ^ (b % METAL_BITS_PER_ULONG) := by
  unfold metal_bitmap_set_bit metal_bit METAL_BITS_PER_ULONG
  rw [if_pos rfl, Nat.one_shiftLeft]
  norm_num [and_sixty_three_eq_mod]

/-- Word written by metal_bitmap_clear_bit. -/
theorem clear_bit_word (bm : Nat → Nat) (b : Nat) :
    (metal_bitmap_clear_bit bm b) (b / METAL_BITS_PER_ULONG)
      = bm (b / METAL_BITS_PER_ULONG) &&& (ULONG_MAX ^^^ 2 ^ (b % METAL_BITS_PER_ULONG)) := by
  unfold metal_bitmap_clear_bit metal_bit METAL_BITS_PER_ULONG
  rw [if_pos rfl, Nat.one_shiftLeft]
  norm_num [and_sixty_three_eq_mod]

/-- Setting bit b makes the bit-b test report true exactly when the in-word
position of b is below INT_BITS; at positions 32..63 the truncated return
reports false although the bit was stored. -/
theorem is_bit_set_after_set (bm : Nat → Nat) (b : Nat) :
    metal_bitmap_is_bit_set (metal_bitmap_set_bit bm b) b
      = decide (b % METAL_BITS_PER_ULONG < INT_BITS) := by
  rw [is_bit_set_eq_testBit, set_bit_word]
  simp [Nat.testBit_two_pow_self]

/-- Clearing bit b makes the bit-b test false. -/
theorem is_bit_set_after_clear (bm : Nat → Nat) (b : Nat) :
    metal_bitmap_is_bit_set (metal_bitmap_clear_bit bm b) b = false := by
  rw [is_bit_set_eq_testBit, clear_bit_word]
  have hlt : b % METAL_BITS_PER_ULONG < 64 := by
    unfold METAL_BITS_PER_ULONG
    exact Nat.mod_lt _ (by norm_num)
  unfold ULONG_MAX
  rw [Nat.testBit_and, Nat.testBit_xor, Nat.testBit_two_pow_self,
    Nat.testBit_two_pow_sub_one, decide_eq_true hlt]
  simp

/-- C6 fails on the LP64 platform at b = 32: set(bm, 32) does store the bit
(bit 32 of word 0 becomes 1 in memory), yet is-set reports false and is-clear
reports true, because the int return value truncates (1UL << 32) to 0.  The
claimed equations hold only for in-word positions below 32. -/
theorem set_bit_32_reported_unset :
    ((metal_bitmap_set_bit bmZero 32) 0).testBit 32 = true
    ∧ metal_bitmap_is_bit_set (metal_bitmap_set_bit bmZero 32) 32 = false
    ∧ metal_bitmap_is_bit_clear (metal_bitmap_set_bit bmZero 32) 32 = true := by
  decide

/-- C7: setting bit b does not change the program's is-set test of any other
bit c.  This holds even under the int return truncation: the truncated value
is a function of the word read for c and of c's in-word position, and set
only changes the word of b at position b's — for c ≠ b either another word is
read or another position of the same word is masked, both unchanged. -/
theorem set_bit_preserves_other (bm : Nat → Nat) (b c : Nat) (h : c ≠ b) :
    metal_bitmap_is_bit_set (metal_bitmap_set_bit bm b) c
      = metal_bitmap_is_bit_set bm c := by
  rw [is_bit_set_eq_testBit, is_bit_set_eq_testBit]
  by_cases hw : c / METAL_BITS_PER_ULONG = b / METAL_BITS_PER_ULONG
  · have hword : (metal_bitmap_set_bit bm b) (c / METAL_BITS_PER_ULONG)
        = bm (c / METAL_BITS_PER_ULONG) ||| 2 ^ (b % METAL_BITS_PER_ULONG) := by
      rw [hw, set_bit_word, ← hw]
    rw [hword, Nat.testBit_or]
    have hmod : b % METAL_BITS_PER_ULONG ≠ c % METAL_BITS_PER_ULONG := by
      intro hm
      apply h
      unfold METAL_BITS_PER_ULONG at hw hm
      omega
    rw [Nat.testBit_two_pow_of_ne hmod]
    simp
  · have hword : (metal_bitmap_set_bit bm b) (c / METAL_BITS_PER_ULONG)
        = bm (c / METAL_BITS_PER_ULONG) := by
      unfold metal_bitmap_set_bit
      rw [if_neg hw]
    rw [hword]

/-- Witness for set_bit_preserves_other at bitmap bmZero, b = 0, c = 1. -/
theorem set_bit_preserves_other_witness :
    (1 : Nat) ≠ 0
    ∧ metal_bitmap_is_bit_set (metal_bitmap_set_bit bmZero 0) 1
        = metal_bitmap_is_bit_set bmZero 1 :=
  ⟨by decide, set_bit_preserves_other bmZero 0 1 (by decide)⟩

/-- Invariants of the set-bit scan loop, by induction on the fuel: the result
lies in [bit, bit + fuel], every index it skipped is below max and unset, and
if the loop stopped before exhausting its fuel then it stopped because the
guard failed. -/
theorem nextSetBitGo_spec (bm : Nat → Nat) (max : Nat) :
    ∀ fuel bit,
      bit ≤ nextSetBitGo bm max fuel bit
      ∧ nextSetBitGo bm max fuel bit ≤ bit + fuel
      ∧ (∀ j, bit ≤ j → j < nextSetBitGo bm max fuel bit →
          j < max ∧ metal_bitmap_is_bit_set bm j = false)
      ∧ (nextSetBitGo bm max fuel bit < bit + fuel →
          nextSetBitGo bm max fuel bit < max →
          metal_bitmap_is_bit_set bm (nextSetBitGo bm max fuel bit) = true) := by
  intro fuel
  induction fuel with
  | zero =>
      intro bit
      simp only [nextSetBitGo]
      exact ⟨Nat.le_refl _, Nat.le_refl _, fun j hj hj' => absurd hj' (by omega),
        fun hf => absurd hf (by omega)⟩
  | succ fuel ih =>
      intro bit
      simp only [nextSetBitGo]
      by_cases hg : bit < max ∧ metal_bitmap_is_bit_set bm bit = false
      · rw [if_pos hg]
        obtain ⟨h1, h2, h3, h4⟩ := ih (bit + 1)
        refine ⟨by omega, by omega, ?_, ?_⟩
        · intro j hj hj'
          rcases Nat.eq_or_lt_of_le hj with hj0 | hj0
          · exact hj0 ▸ hg
          · exact h3 j hj0 hj'
        · intro hf hm
          exact h4 (by omega) hm
      · rw [if_neg hg]
        refine ⟨Nat.le_refl _, by omega, fun j hj hj' => absurd hj' (by omega), ?_⟩
        intro _ hm
        rcases hb : metal_bitmap_is_bit_set bm bit with _ | _
        · exact absurd ⟨hm, hb⟩ hg
        · rfl

/-- Characterization of the scan relative to the program's own (truncated)
bit test, for start ≤ max: it returns max iff metal_bitmap_is_bit_set reports
no index of [start, max) as set; otherwise it returns the smallest index that
metal_bitmap_is_bit_set reports as set.  Because the bit test truncates, a
reported-set index is not always an actually stored set bit and vice versa. -/
theorem next_set_bit_spec (bm : Nat → Nat) (start max : Nat) (h : start ≤ max) :
    (metal_bitmap_next_set_bit bm start max = max
      ↔ ∀ i, start ≤ i → i < max → metal_bitmap_is_bit_set bm i = false)
    ∧ (¬ (∀ i, start ≤ i → i < max → metal_bitmap_is_bit_set bm i = false) →
        start ≤ metal_bitmap_next_set_bit bm start max
        ∧ metal_bitmap_next_set_bit bm start max < max
        ∧ metal_bitmap_is_bit_set bm (metal_bitmap_next_set_bit bm start max) = true
        ∧ ∀ j, start ≤ j → j < metal_bitmap_next_set_bit bm start max →
            metal_bitmap_is_bit_set bm j = false) := by
  unfold metal_bitmap_next_set_bit
  obtain ⟨h1, h2, h3, h4⟩ := nextSetBitGo_spec bm max (max - start) start
  set r := nextSetBitGo bm max (max - start) start with hr
  constructor
  · constructor
    · intro heq i hi hi'
      exact (h3 i hi (by omega)).2
    · intro hnone
      by_contra hne
      have hlt : r < max := by omega
      have hset := h4 (by omega) hlt
      rw [hnone r h1 hlt] at hset
      exact absurd hset (by decide)
  · intro hnone
    have hne : r ≠ max := by
      intro heq
      apply hnone
      intro i hi hi'
      exact (h3 i hi (by omega)).2
    have hlt : r < max := by omega
    exact ⟨h1, hlt, h4 (by omega) hlt, fun j hj hj' => (h3 j hj hj').2⟩

/-- Boundary observation: when start > max the scan does not return max but
start itself — at start = 5, max = 3 over the all-zero bitmap no bit of the
empty range [5, 3) is set, yet the scan returns 5, not max = 3. -/
theorem next_set_bit_start_gt_max_cex :
    metal_bitmap_next_set_bit bmZero 5 3 ≠ 3
    ∧ (∀ i, i < 3 → 5 ≤ i → metal_bitmap_is_bit_set bmZero i = false) := by
  decide

/-- C4 fails on the LP64 platform even for start ≤ max: over the bitmap whose
word 0 = 2^32, bit 32 of [0, 64) is set in memory, yet the scan returns
max = 64 instead of the smallest set index 32, because the int return of
metal_bitmap_is_bit_set truncates (1UL << 32) to 0 and the guard treats bit
32 as unset. -/
theorem next_set_bit_skips_high_bit :
    (bm2p32 0).testBit 32 = true
    ∧ metal_bitmap_next_set_bit bm2p32 0 64 = 64 := by
  decide

/-- Invariants of the clear-bit scan loop; mirror image of nextSetBitGo_spec. -/
theorem nextClearBitGo_spec (bm : Nat → Nat) (max : Nat) :
    ∀ fuel bit,
      bit ≤ nextClearBitGo bm max fuel bit
      ∧ nextClearBitGo bm max fuel bit ≤ bit + fuel
      ∧ (∀ j, bit ≤ j → j < nextClearBitGo bm max fuel bit →
          j < max ∧ metal_bitmap_is_bit_clear bm j = false)
      ∧ (nextClearBitGo bm max fuel bit < bit + fuel →
          nextClearBitGo bm max fuel bit < max →
          metal_bitmap_is_bit_clear bm (nextClearBitGo bm max fuel bit) = true) := by
  intro fuel
  induction fuel with
  | zero =>
      intro bit
      simp only [nextClearBitGo]
      exact ⟨Nat.le_refl _, Nat.le_refl _, fun j hj hj' => absurd hj' (by omega),
        fun hf => absurd hf (by omega)⟩
  | succ fuel ih =>
      intro bit
      simp only [nextClearBitGo]
      by_cases hg : bit < max ∧ metal_bitmap_is_bit_clear bm bit = false
      · rw [if_pos hg]
        obtain ⟨h1, h2, h3, h4⟩ := ih (bit + 1)
        refine ⟨by omega, by omega, ?_, ?_⟩
        · intro j hj hj'
          rcases Nat.eq_or_lt_of_le hj with hj0 | hj0
          · exact hj0 ▸ hg
          · exact h3 j hj0 hj'
        · intro hf hm
          exact h4 (by omega) hm
      · rw [if_neg hg]
        refine ⟨Nat.le_refl _, by omega, fun j hj hj' => absurd hj' (by omega), ?_⟩
        intro _ hm
        rcases hb : metal_bitmap_is_bit_clear bm bit with _ | _
        · exact absurd ⟨hm, hb⟩ hg
        · rfl

/-- Characterization of the clear-bit scan relative to the program's own
is-clear test (the negation of the truncated is-set), for start ≤ max; the
formal dual of next_set_bit_spec over the embedded predicates. -/
theorem next_clear_bit_spec (bm : Nat → Nat) (start max : Nat) (h : start ≤ max) :
    (metal_bitmap_next_clear_bit bm start max = max
      ↔ ∀ i, start ≤ i → i < max → metal_bitmap_is_bit_clear bm i = false)
    ∧ (¬ (∀ i, start ≤ i → i < max → metal_bitmap_is_bit_clear bm i = false) →
        start ≤ metal_bitmap_next_clear_bit bm start max
        ∧ metal_bitmap_next_clear_bit bm start max < max
        ∧ metal_bitmap_is_bit_clear bm (metal_bitmap_next_clear_bit bm start max) = true
        ∧ ∀ j, start ≤ j → j < metal_bitmap_next_clear_bit bm start max →
            metal_bitmap_is_bit_clear bm j = false) := by
  unfold metal_bitmap_next_clear_bit
  obtain ⟨h1, h2, h3, h4⟩ := nextClearBitGo_spec bm max (max - start) start
  set r := nextClearBitGo bm max (max - start) start with hr
  constructor
  · constructor
    · intro heq i hi hi'
      exact (h3 i hi (by omega)).2
    · intro hnone
      by_contra hne
      have hlt : r < max := by omega
      have hset := h4 (by omega) hlt
      rw [hnone r h1 hlt] at hset
      exact absurd hset (by decide)
  · intro hnone
    have hne : r ≠ max := by
      intro heq
      apply hnone
      intro i hi hi'
      exact (h3 i hi (by omega)).2
    have hlt : r < max := by omega
    exact ⟨h1, hlt, h4 (by omega) hlt, fun j hj hj' => (h3 j hj hj').2⟩

/-- Boundary observation, dual to next_set_bit_start_gt_max_cex: when
start > max the clear-bit scan returns start, not max, although no bit of the
empty range [5, 3) is clear. -/
theorem next_clear_bit_start_gt_max_cex :
    metal_bitmap_next_clear_bit bmZero 5 3 ≠ 3
    ∧ (∀ i, i < 3 → 5 ≤ i → metal_bitmap_is_bit_clear bmZero i = false) := by
  decide

/-- C1: over the bitmap with bits {2, 5, 9} set and bound 10, the iteration
macro never advances past the first set bit: the scan restarted at the found
index 2 returns 2 again, so after any number fuel of iterations the loop has
yielded fuel copies of 2 and is still running — it never yields 5 or 9 and
never terminates, against the specified sequence [2, 5, 9]. -/
theorem for_each_set_bit_diverges :
    metal_bitmap_next_set_bit bm259 0 10 = 2
    ∧ metal_bitmap_next_set_bit bm259 2 10 = 2
    ∧ ∀ fuel, metal_bitmap_for_each_set_bit bm259 10 fuel = List.replicate fuel 2 := by
  have h0 : metal_bitmap_next_set_bit bm259 0 10 = 2 := by decide
  have h2 : metal_bitmap_next_set_bit bm259 2 10 = 2 := by decide
  refine ⟨h0, h2, ?_⟩
  intro fuel
  unfold metal_bitmap_for_each_set_bit
  rw [h0]
  induction fuel with
  | zero => rfl
  | succ fuel ih =>
      rw [List.replicate_succ]
      simp only [forEachSetBitGo]
      rw [if_pos (by norm_num), h2, ih]

/-- C2: over the bitmap with bits {2, 5, 9} set and bound 10, the clear-bit
iteration macro never advances past the first clear bit: the scan restarted
at the found index 0 returns 0 again, so after any number fuel of iterations
the loop has yielded fuel copies of 0 and is still running — against the
specified sequence [0, 1, 3, 4, 6, 7, 8]. -/
theorem for_each_clear_bit_diverges :
    metal_bitmap_next_clear_bit bm259 0 10 = 0
    ∧ ∀ fuel, metal_bitmap_for_each_clear_bit bm259 10 fuel = List.replicate fuel 0 := by
  have h0 : metal_bitmap_next_clear_bit bm259 0 10 = 0 := by decide
  refine ⟨h0, ?_⟩
  intro fuel
  unfold metal_bitmap_for_each_clear_bit
  rw [h0]
  induction fuel with
  | zero => rfl
  | succ fuel ih =>
      rw [List.replicate_succ]
      simp only [forEachClearBitGo]
      rw [if_pos (by norm_num), h0, ih]

/-- C3: not every operation completes in bounded time: on the bitmap with bit
0 set and bound 1, the loop variable of metal_bitmap_for_each_set_bit stays
at 0 < 1 after every number of loop steps, so the loop guard never fails, and
each additional unit of fuel yields one more iteration — the iteration macro
performs unbounded work instead of terminating. -/
theorem for_each_set_bit_unbounded :
    (∀ n : Nat,
      (fun b => metal_bitmap_next_set_bit bmOne b 1)^[n]
        (metal_bitmap_next_set_bit bmOne 0 1) < 1)
    ∧ (∀ fuel, (metal_bitmap_for_each_set_bit bmOne 1 fuel).length = fuel) := by
  have h0 : metal_bitmap_next_set_bit bmOne 0 1 = 0 := by decide
  constructor
  · intro n
    induction n with
    | zero =>
        rw [Function.iterate_zero_apply, h0]
        decide
    | succ n ih =>
        rw [Function.iterate_succ_apply']
        have hz : (fun b => metal_bitmap_next_set_bit bmOne b 1)^[n]
            (metal_bitmap_next_set_bit bmOne 0 1) = 0 := by omega
        rw [hz]
        show metal_bitmap_next_set_bit bmOne 0 1 < 1
        rw [h0]
        decide
  · intro fuel
    unfold metal_bitmap_for_each_set_bit
    rw [h0]
    induction fuel with
    | zero => rfl
    | succ fuel ih =>
        simp only [forEachSetBitGo]
        rw [if_pos (by norm_num), h0]
        simpa using ih

/-- On input 2^k the metal_log2 loop, started at result = r ≤ k with enough
fuel, stops exactly at k. -/
theorem metalLog2Go_pow (k : Nat) :
    ∀ fuel r, r ≤ k → k ≤ r + fuel → metalLog2Go (2 ^ k) fuel r = k := by
  intro fuel
  induction fuel with
  | zero =>
      intro r h1 h2
      have : r = k := by omega
      simp [metalLog2Go, this]
  | succ fuel ih =>
      intro r h1 h2
      simp only [metalLog2Go]
      rcases Nat.eq_or_lt_of_le h1 with he | hlt
      · rw [if_neg]
        · exact he
        · rw [Nat.one_shiftLeft, he]
          exact Nat.lt_irrefl _
      · rw [if_pos]
        · exact ih (r + 1) hlt (by omega)
        · rw [Nat.one_shiftLeft]
          exact Nat.pow_lt_pow_right (by norm_num) hlt

/-- C9: for every positive power of two 2^k, metal_log2 returns the exponent
k (in particular 1 ↦ 0, 2 ↦ 1, 1024 ↦ 10) and the debug assertion accepts
the input; on the non-power-of-two 3 the debug assertion fails, triggering
the precondition-violation path. -/
theorem log2_pow_and_assert :
    (∀ k : Nat, metal_log2 (2 ^ k) = k)
    ∧ metal_log2 1 = 0 ∧ metal_log2 2 = 1 ∧ metal_log2 1024 = 10
    ∧ metal_log2_assert_ok 1 = true
    ∧ metal_log2_assert_ok 2 = true
    ∧ metal_log2_assert_ok 1024 = true
    ∧ metal_log2_assert_ok 3 = false := by
  have hgen : ∀ k : Nat, metal_log2 (2 ^ k) = k := by
    intro k
    have hk := Nat.lt_two_pow k
    exact metalLog2Go_pow k (2 ^ k) 0 (Nat.zero_le k) (by omega)
  exact ⟨hgen, by decide, by decide, by decide, by decide, by decide, by decide,
    by decide⟩

/-- C10: on input 0 — not a positive power of two, since 2^k > 0 for all k —
the wrapped subtraction makes the assert expression 0 & (2^64 - 1) = 0, so
the debug assertion succeeds and the loop returns 0 immediately. -/
theorem log2_zero_passes_assert :
    metal_log2_assert_ok 0 = true
    ∧ metal_log2 0 = 0
    ∧ ∀ k : Nat, 2 ^ k ≠ 0 := by
  exact ⟨by decide, by decide,
    fun k => Nat.pos_iff_ne_zero.mp (Nat.two_pow_pos k)⟩

/-- C8: word-count equals the ceiling of n / W for W = METAL_BITS_PER_ULONG:
it equals ceil(n / W) as a rational ceiling, equivalently it is the least k
with n ≤ k * W. -/
theorem bitmap_longs_eq_ceil (n : Nat) :
    ((metal_bitmap_longs n : ℤ) = ⌈(n : ℚ) / (METAL_BITS_PER_ULONG : ℚ)⌉)
    ∧ n ≤ metal_bitmap_longs n * METAL_BITS_PER_ULONG
    ∧ ∀ k, n ≤ k * METAL_BITS_PER_ULONG → metal_bitmap_longs n ≤ k := by
  unfold METAL_BITS_PER_ULONG
  have hq : metal_bitmap_longs n = (n + 63) / 64 := by
    simp [metal_bitmap_longs, metal_div_round_up, metal_div_round_down,
      METAL_BITS_PER_ULONG]
  have hA : n ≤ ((n + 63) / 64) * 64 := by omega
  have hB : ((n + 63) / 64) * 64 < n + 64 := by omega
  refine ⟨?_, ?_, ?_⟩
  · rw [hq, eq_comm, Int.ceil_eq_iff]
    simp only [Int.cast_natCast, Nat.cast_ofNat]
    have h64 : (0 : ℚ) < 64 := by norm_num
    have h1 : (((n + 63) / 64 : ℕ) : ℚ) * 64 < (n : ℚ) + 64 := by
      exact_mod_cast hB
    have h2 : (n : ℚ) ≤ (((n + 63) / 64 : ℕ) : ℚ) * 64 := by
      exact_mod_cast hA
    constructor
    · rw [lt_div_iff₀ h64]
      linarith
    · rw [div_le_iff₀ h64]
      linarith
  · rw [hq]
    omega
  · intro k hk
    rw [hq]
    omega

/-- C5 fails on the LP64 platform even for start ≤ max: over the bitmap whose
word 0 has all 64 bits set, no bit of [0, 64) is clear in memory, yet the
scan returns 32 — reporting the set bit 32 as clear — instead of max = 64,
because is-clear negates the truncated is-set, which reads bit 32 as 0. -/
theorem next_clear_bit_false_clear :
    (∀ i, i < 64 → (bmOnes 0).testBit i = true)
    ∧ metal_bitmap_next_clear_bit bmOnes 0 64 = 32 := by
  decide
